import Mathlib

/-!
# Verification of the odelib ODE integration library

Shallow embedding of the library's single-step (Runge-Kutta) and linear
multistep integrators.  C `double` scalars are modelled as exact rationals
(`ℚ`); `double complex` scalars as pairs of rationals.  Flat C buffers
(state history `y`, derivative history `prev_der`, coefficient arrays) are
modelled as total functions `ℕ → ℚ`; a buffer of length `L` in C
corresponds to the indices `< L` of the function, and writes into a slice
`&buf[blk*s] .. &buf[blk*s + s - 1]` are modelled by `writeBlock`.
Stand-alone length-`s` scratch vectors (Runge-Kutta stage buffers, the
`ywork` vector of the bootstrap) are modelled as total functions whose
value at every index is the value the C code stores at the indices `< s`;
only indices below the system size correspond to C memory.

A derivative callback `(size, x, y[], out[])` is modelled as a function
`ℚ → (ℕ → ℚ) → (ℕ → ℚ)` from the grid point and the state to the
derivative vector.  To reason about how often and at which arguments the
code invokes the callback, the steppers additionally return the list of
`(x, state)` pairs at which the callback was invoked, in call order; each
entry of that list corresponds to one `yprime(...)` call in the C source.
-/

namespace Odelib

/-- Real state / buffer: a flat array of rationals indexed by `ℕ`. -/
abbrev RVec := ℕ → ℚ

/-- Real derivative callback: grid point and state to derivative vector,
modelling `real_odesys_der` (the `extra_args` parameter block is absorbed
into the function closure). -/
abbrev RDer := ℚ → RVec → RVec

/-- Real single-step routine as consumed by the multistep bootstrap
(`real_rk_routine`): step size, grid point and state to the next state. -/
abbrev RKR := ℚ → ℚ → RVec → RVec

/-- Model of `rarr_copy_values (s, src, &buf[blk*s])`: overwrite the
block of `s` consecutive entries starting at `blk*s` with `src`. -/
def writeBlock {α : Type} (s blk : ℕ) (src buf : ℕ → α) : ℕ → α :=
  fun idx => if blk * s ≤ idx ∧ idx < blk * s + s then src (idx - blk * s) else buf idx

/-- Model of the descending shift loop of `real_set_next_multistep` /
`cplx_set_next_multistep`: `shiftLoop s k` performs, for `j = k` down to
`1`, the block copy `buf[j*s + i] = buf[(j-1)*s + i]` for `i < s`.  Each
target block is written before its source block is visited, so every copy
reads the original contents, exactly as in the C loop. -/
def shiftLoop {α : Type} (s : ℕ) : ℕ → (ℕ → α) → (ℕ → α)
  | 0, buf => buf
  | j + 1, buf =>
      shiftLoop s j
        (fun idx => if (j + 1) * s ≤ idx ∧ idx < (j + 1) * s + s then buf (idx - s) else buf idx)

/-! ## Single-step engine (`singlestep.c`, real scalars)

Each stepper returns the next-state buffer together with the trace of
derivative-callback invocations `(x argument, state argument)`. -/

/-- `real_rungekutta2` from `singlestep.c` (Heun):
`k1 = f(x, y)`, `karg = h*k1 + y`, `k2 = f(x+h, karg)`,
`ynext[i] = y[i] + 0.5*h*(k1[i] + k2[i])`. -/
def real_rungekutta2 (h x : ℚ) (f : RDer) (y : RVec) : RVec × List (ℚ × RVec) :=
  let k1 := f x y
  let karg1 : RVec := fun i => h * k1 i + y i
  let k2 := f (x + h) karg1
  (fun i => y i + 1/2 * h * (k1 i + k2 i), [(x, y), (x + h, karg1)])

/-- `real_rungekutta4` from `singlestep.c` (classical RK4), with the stage
buffers written exactly as in the source
(`karg[i] = 0.5*h*k[i] + y[i]`, final
`ynext[i] = y[i] + (k1[i] + 2*k2[i] + 2*k3[i] + k4[i])*h/6`). -/
def real_rungekutta4 (h x : ℚ) (f : RDer) (y : RVec) : RVec × List (ℚ × RVec) :=
  let k1 := f x y
  let karg1 : RVec := fun i => 1/2 * h * k1 i + y i
  let k2 := f (x + 1/2 * h) karg1
  let karg2 : RVec := fun i => 1/2 * h * k2 i + y i
  let k3 := f (x + 1/2 * h) karg2
  let karg3 : RVec := fun i => h * k3 i + y i
  let k4 := f (x + h) karg3
  (fun i => y i + (k1 i + 2 * k2 i + 2 * k3 i + k4 i) * h / 6,
   [(x, y), (x + 1/2 * h, karg1), (x + 1/2 * h, karg2), (x + h, karg3)])

/-- `real_rungekutta5` from `singlestep.c` (6-stage 5th order scheme,
Butcher table 236a of Butcher's book), stage arguments and the final
combination written exactly as in the source. -/
def real_rungekutta5 (h x : ℚ) (f : RDer) (y : RVec) : RVec × List (ℚ × RVec) :=
  let k1 := f x y
  let a1 : RVec := fun i => y i + h / 4 * k1 i
  let k2 := f (x + 1/4 * h) a1
  let a2 : RVec := fun i => y i + h / 8 * (k1 i + k2 i)
  let k3 := f (x + 1/4 * h) a2
  let a3 : RVec := fun i => y i + h / 2 * k3 i
  let k4 := f (x + 1/2 * h) a3
  let a4 : RVec := fun i => y i + h / 16 * (3 * k1 i - 6 * k2 i + 6 * k3 i + 9 * k4 i)
  let k5 := f (x + 3/4 * h) a4
  let a5 : RVec := fun i => y i + h / 7 * (-3 * k1 i + 8 * k2 i + 6 * k3 i - 12 * k4 i + 8 * k5 i)
  let k6 := f (x + h) a5
  (fun i => y i + h / 90 * (7 * k1 i + 32 * k3 i + 12 * k4 i + 32 * k5 i + 7 * k6 i),
   [(x, y), (x + 1/4 * h, a1), (x + 1/4 * h, a2), (x + 1/2 * h, a3), (x + 3/4 * h, a4), (x + h, a5)])

/-! ## Multistep engine (`multistep.c`, real scalars) -/

/-- The inner accumulation loop of `real_general_multistep`
(`for (j = 1; j <= m; j++) summ = summ + h*b[j]*der[stride] - a[j]*y[stride]`
with `stride = i + (j-1)*s`), folded left to right from the start value
`init`; `t` ranges over `j - 1`. -/
def msAccum (h : ℚ) (s : ℕ) (y der a b : RVec) (i : ℕ) (init : ℚ) (m : ℕ) : ℚ :=
  (List.range m).foldl
    (fun summ t => summ + h * b (t + 1) * der (i + t * s) - a (t + 1) * y (i + t * s)) init

/-- The corrector loop of `real_general_multistep` (`while (iter > 0)`):
each pass evaluates the callback at `(x + h, ynext)` into the scratch
block `m` of the derivative history, then overwrites `ynext[i]` for
`i < s` starting the accumulation from `h*b[0]*der[i + m*s]`.  Returns
the final `ynext`, the final derivative history and the call trace. -/
def realCorrectorLoop (h x : ℚ) (f : RDer) (m s : ℕ) (y a b : RVec) :
    ℕ → RVec → RVec → RVec × RVec × List (ℚ × RVec)
  | 0, der, ynext => (ynext, der, [])
  | k + 1, der, ynext =>
      let der1 := writeBlock s m (f (x + h) ynext) der
      let ynext1 : RVec := fun i =>
        if i < s then msAccum h s y der1 a b i (h * b 0 * der1 (i + m * s)) m else ynext i
      let rest := realCorrectorLoop h x f m s y a b k der1 ynext1
      (rest.1, rest.2.1, (x + h, ynext) :: rest.2.2)

/-- `real_general_multistep` from `multistep.c` / `ode_multistep.c`.
`m` and `s` are the `ms_order` and `system_size` fields of the workspace,
`der` the workspace's `prev_der` buffer of `(m+1)*s` entries, `y` the
state-history buffer, `ynext` the in/out next-state buffer.  Returns the
new `ynext` contents, the new `prev_der` contents and the callback
trace. -/
def real_general_multistep (h x : ℚ) (f : RDer) (m s : ℕ) (y a b : RVec) (iter : ℕ)
    (der ynext : RVec) : RVec × RVec × List (ℚ × RVec) :=
  match iter with
  | 0 =>
      (fun i => if i < s then msAccum h s y der a b i 0 m else ynext i, der, [])
  | k + 1 => realCorrectorLoop h x f m s y a b (k + 1) der ynext

/-- `real_set_next_multistep` from `multistep.c`: shift both histories one
block older (`j` from `m-1` down to `1`), copy the accepted state into
state block `0`, evaluate the callback at `(xnext, ynext)` into derivative
block `0`.  Returns the new state history and derivative history. -/
def real_set_next_multistep (xnext : ℚ) (f : RDer) (m s : ℕ) (y der ynext : RVec) :
    RVec × RVec :=
  let y1 := shiftLoop s (m - 1) y
  let der1 := shiftLoop s (m - 1) der
  (writeBlock s 0 ynext y1, writeBlock s 0 (f xnext ynext) der1)

/-- One pass of the bootstrap loop of `init_real_multistep` (`multistep.c`)
at loop counter `i`: advance the working state one Runge-Kutta step from
the current grid point, store it into state-history block `m - 1 - i`, set
the grid point to `i*h` and store the derivative there into derivative
block `m - 1 - i`.  The state quadruple is
`(ywork, inp.x, state history, derivative history)`. -/
def initIter (h : ℚ) (f : RDer) (m s : ℕ) (rk : RKR)
    (st : RVec × ℚ × RVec × RVec) (i : ℕ) : RVec × ℚ × RVec × RVec :=
  let ynew := rk h st.2.1 st.1
  (ynew, (i : ℚ) * h,
   writeBlock s (m - 1 - i) ynew st.2.2.1,
   writeBlock s (m - 1 - i) (f ((i : ℚ) * h) ynew) st.2.2.2)

/-- `init_real_multistep` from `multistep.c`: place `y0` and its
derivative at `x = 0` into block `m-1`, then run the loop for
`i = 1, ..., m-1`.  `yms` and `der` are the initial (arbitrary) contents
of the state-history output buffer and of the workspace's `prev_der`
buffer.  Returns the populated state history and derivative history. -/
def init_real_multistep (h : ℚ) (f : RDer) (m s : ℕ) (rk : RKR)
    (y0 yms der : RVec) : RVec × RVec :=
  let yms1 := writeBlock s (m - 1) y0 yms
  let der1 := writeBlock s (m - 1) (f 0 y0) der
  let fin := ((List.range (m - 1)).map (· + 1)).foldl (initIter h f m s rk) (y0, 0, yms1, der1)
  (fin.2.2.1, fin.2.2.2)

/-- The chain of working states produced by the bootstrap: `bootChain k`
is `ywork` after `k` loop passes (`ywork` starts as `y0`; pass `i` uses
the grid point `(i-1)*h` left over from the previous pass). -/
def bootChain (h : ℚ) (rk : RKR) (y0 : RVec) : ℕ → RVec
  | 0 => y0
  | k + 1 => rk h ((k : ℚ) * h) (bootChain h rk y0 k)

/-- The history-indexing invariant of the multistep workspace: with the
most recent accepted grid point at `x`, state block `j` holds the
trajectory `sol` at `x - j*h` and derivative block `j` holds the callback
evaluated there, for all `j < m` and components `i < s`. -/
def HistInv (f : RDer) (h : ℚ) (m s : ℕ) (sol : ℚ → RVec) (x : ℚ) (y der : RVec) : Prop :=
  ∀ j, j < m → ∀ i, i < s →
    y (j * s + i) = sol (x - (j : ℚ) * h) i ∧
    der (j * s + i) = f (x - (j : ℚ) * h) (sol (x - (j : ℚ) * h)) i

/-! ## Adams coefficient tables and predictor-corrector wrappers -/

/-- `ADAMS4_LEFT` / `ap`, `ac`: `{1, -1, 0, 0, 0}`. -/
def ADAMS4_LEFT : RVec := fun j => if j = 0 then 1 else if j = 1 then -1 else 0

/-- `ADAMS4_PRED`: `{0, 55/24, -59/24, 37/24, -9/24}`. -/
def ADAMS4_PRED : RVec := fun j =>
  if j = 1 then 55/24 else if j = 2 then -59/24 else if j = 3 then 37/24 else
  if j = 4 then -9/24 else 0

/-- `ADAMS4_CORR`: `{9/24, 19/24, -5/24, 1/24, 0}`. -/
def ADAMS4_CORR : RVec := fun j =>
  if j = 0 then 9/24 else if j = 1 then 19/24 else if j = 2 then -5/24 else
  if j = 3 then 1/24 else 0

/-- `ADAMS6_LEFT`: `{1, -1, 0, 0, 0, 0, 0}`. -/
def ADAMS6_LEFT : RVec := fun j => if j = 0 then 1 else if j = 1 then -1 else 0

/-- `ADAMS6_PRED`: `{0, 4277, -7923, 9982, -7298, 2877, -475} / 1440`. -/
def ADAMS6_PRED : RVec := fun j =>
  if j = 1 then 4277/1440 else if j = 2 then -7923/1440 else if j = 3 then 9982/1440 else
  if j = 4 then -7298/1440 else if j = 5 then 2877/1440 else if j = 6 then -475/1440 else 0

/-- `ADAMS6_CORR`: `{475, 1427, -798, 482, -173, 27, 0} / 1440`. -/
def ADAMS6_CORR : RVec := fun j =>
  if j = 0 then 475/1440 else if j = 1 then 1427/1440 else if j = 2 then -798/1440 else
  if j = 3 then 482/1440 else if j = 4 then -173/1440 else if j = 5 then 27/1440 else 0

/-- `real_adams4pc` from `multistep.c`: explicit predictor pass, then, when
`iter > 0`, the corrector with `iter` fixed-point passes. -/
def real_adams4pc (h x : ℚ) (f : RDer) (m s : ℕ) (y : RVec) (iter : ℕ)
    (der ynext : RVec) : RVec × RVec × List (ℚ × RVec) :=
  let p := real_general_multistep h x f m s y ADAMS4_LEFT ADAMS4_PRED 0 der ynext
  match iter with
  | 0 => p
  | k + 1 =>
      let c := real_general_multistep h x f m s y ADAMS4_LEFT ADAMS4_CORR (k + 1) p.2.1 p.1
      (c.1, c.2.1, p.2.2 ++ c.2.2)

/-- `real_adams6pc` from `multistep.c`. -/
def real_adams6pc (h x : ℚ) (f : RDer) (m s : ℕ) (y : RVec) (iter : ℕ)
    (der ynext : RVec) : RVec × RVec × List (ℚ × RVec) :=
  let p := real_general_multistep h x f m s y ADAMS6_LEFT ADAMS6_PRED 0 der ynext
  match iter with
  | 0 => p
  | k + 1 =>
      let c := real_general_multistep h x f m s y ADAMS6_LEFT ADAMS6_CORR (k + 1) p.2.1 p.1
      (c.1, c.2.1, p.2.2 ++ c.2.2)

/-! ## Complex-scalar variants

`double complex` is modelled as a pair of rationals.  In the source every
scalar multiplying a complex quantity (`h`, the `a`/`b` coefficients, the
integer stage constants) is a real `double`, so only real-scalar times
complex (`rsc`), addition (`cadd`) and subtraction (`csub`) occur.  The
complex routines below mirror the hand-duplicated complex functions of
`singlestep.c` / `multistep.c` expression by expression. -/

/-- A `double complex` value: real and imaginary part. -/
abbrev Cplx := ℚ × ℚ

/-- Complex addition. -/
def cadd (u v : Cplx) : Cplx := (u.1 + v.1, u.2 + v.2)

/-- Complex subtraction. -/
def csub (u v : Cplx) : Cplx := (u.1 - v.1, u.2 - v.2)

/-- Real scalar times complex (the C promotion `double * double complex`). -/
def rsc (r : ℚ) (z : Cplx) : Cplx := (r * z.1, r * z.2)

/-- Complex state / buffer. -/
abbrev CVec := ℕ → Cplx

/-- Complex derivative callback (`cplx_odesys_der`). -/
abbrev CDer := ℚ → CVec → CVec

/-- Complex single-step routine (`cplx_rk_routine`). -/
abbrev CKR := ℚ → ℚ → CVec → CVec

/-- `cplx_rungekutta2` from `singlestep.c`. -/
def cplx_rungekutta2 (h x : ℚ) (f : CDer) (y : CVec) : CVec × List (ℚ × CVec) :=
  let k1 := f x y
  let karg1 : CVec := fun i => cadd (rsc h (k1 i)) (y i)
  let k2 := f (x + h) karg1
  (fun i => cadd (y i) (rsc (1/2 * h) (cadd (k1 i) (k2 i))), [(x, y), (x + h, karg1)])

/-- `cplx_rungekutta4` from `singlestep.c`. -/
def cplx_rungekutta4 (h x : ℚ) (f : CDer) (y : CVec) : CVec × List (ℚ × CVec) :=
  let k1 := f x y
  let karg1 : CVec := fun i => cadd (rsc (1/2 * h) (k1 i)) (y i)
  let k2 := f (x + 1/2 * h) karg1
  let karg2 : CVec := fun i => cadd (rsc (1/2 * h) (k2 i)) (y i)
  let k3 := f (x + 1/2 * h) karg2
  let karg3 : CVec := fun i => cadd (rsc h (k3 i)) (y i)
  let k4 := f (x + h) karg3
  (fun i => cadd (y i)
      (rsc (h / 6) (cadd (cadd (cadd (k1 i) (rsc 2 (k2 i))) (rsc 2 (k3 i))) (k4 i))),
   [(x, y), (x + 1/2 * h, karg1), (x + 1/2 * h, karg2), (x + h, karg3)])

/-- `cplx_rungekutta5` from `singlestep.c`. -/
def cplx_rungekutta5 (h x : ℚ) (f : CDer) (y : CVec) : CVec × List (ℚ × CVec) :=
  let k1 := f x y
  let a1 : CVec := fun i => cadd (y i) (rsc (h / 4) (k1 i))
  let k2 := f (x + 1/4 * h) a1
  let a2 : CVec := fun i => cadd (y i) (rsc (h / 8) (cadd (k1 i) (k2 i)))
  let k3 := f (x + 1/4 * h) a2
  let a3 : CVec := fun i => cadd (y i) (rsc (h / 2) (k3 i))
  let k4 := f (x + 1/2 * h) a3
  let a4 : CVec := fun i => cadd (y i)
      (rsc (h / 16) (cadd (cadd (csub (rsc 3 (k1 i)) (rsc 6 (k2 i))) (rsc 6 (k3 i))) (rsc 9 (k4 i))))
  let k5 := f (x + 3/4 * h) a4
  let a5 : CVec := fun i => cadd (y i)
      (rsc (h / 7) (cadd (csub (cadd (cadd (rsc (-3) (k1 i)) (rsc 8 (k2 i))) (rsc 6 (k3 i)))
        (rsc 12 (k4 i))) (rsc 8 (k5 i))))
  let k6 := f (x + h) a5
  (fun i => cadd (y i)
      (rsc (h / 90) (cadd (cadd (cadd (cadd (rsc 7 (k1 i)) (rsc 32 (k3 i))) (rsc 12 (k4 i)))
        (rsc 32 (k5 i))) (rsc 7 (k6 i)))),
   [(x, y), (x + 1/4 * h, a1), (x + 1/4 * h, a2), (x + 1/2 * h, a3), (x + 3/4 * h, a4), (x + h, a5)])

/-- The inner accumulation loop of `cplx_general_multistep`. -/
def cmsAccum (h : ℚ) (s : ℕ) (y der : CVec) (a b : RVec) (i : ℕ) (init : Cplx) (m : ℕ) : Cplx :=
  (List.range m).foldl
    (fun summ t =>
      csub (cadd summ (rsc (h * b (t + 1)) (der (i + t * s)))) (rsc (a (t + 1)) (y (i + t * s))))
    init

/-- The corrector loop of `cplx_general_multistep`. -/
def cplxCorrectorLoop (h x : ℚ) (f : CDer) (m s : ℕ) (y : CVec) (a b : RVec) :
    ℕ → CVec → CVec → CVec × CVec × List (ℚ × CVec)
  | 0, der, ynext => (ynext, der, [])
  | k + 1, der, ynext =>
      let der1 := writeBlock s m (f (x + h) ynext) der
      let ynext1 : CVec := fun i =>
        if i < s then cmsAccum h s y der1 a b i (rsc (h * b 0) (der1 (i + m * s))) m else ynext i
      let rest := cplxCorrectorLoop h x f m s y a b k der1 ynext1
      (rest.1, rest.2.1, (x + h, ynext) :: rest.2.2)

/-- `cplx_general_multistep` from `multistep.c` / `ode_multistep.c`. -/
def cplx_general_multistep (h x : ℚ) (f : CDer) (m s : ℕ) (y : CVec) (a b : RVec) (iter : ℕ)
    (der ynext : CVec) : CVec × CVec × List (ℚ × CVec) :=
  match iter with
  | 0 =>
      (fun i => if i < s then cmsAccum h s y der a b i (0, 0) m else ynext i, der, [])
  | k + 1 => cplxCorrectorLoop h x f m s y a b (k + 1) der ynext

/-- `cplx_set_next_multistep` from `multistep.c`. -/
def cplx_set_next_multistep (xnext : ℚ) (f : CDer) (m s : ℕ) (y der ynext : CVec) :
    CVec × CVec :=
  let y1 := shiftLoop s (m - 1) y
  let der1 := shiftLoop s (m - 1) der
  (writeBlock s 0 ynext y1, writeBlock s 0 (f xnext ynext) der1)

/-- One pass of the bootstrap loop of `init_cplx_multistep`. -/
def cinitIter (h : ℚ) (f : CDer) (m s : ℕ) (rk : CKR)
    (st : CVec × ℚ × CVec × CVec) (i : ℕ) : CVec × ℚ × CVec × CVec :=
  let ynew := rk h st.2.1 st.1
  (ynew, (i : ℚ) * h,
   writeBlock s (m - 1 - i) ynew st.2.2.1,
   writeBlock s (m - 1 - i) (f ((i : ℚ) * h) ynew) st.2.2.2)

/-- `init_cplx_multistep` from `multistep.c`. -/
def init_cplx_multistep (h : ℚ) (f : CDer) (m s : ℕ) (rk : CKR)
    (y0 yms der : CVec) : CVec × CVec :=
  let yms1 := writeBlock s (m - 1) y0 yms
  let der1 := writeBlock s (m - 1) (f 0 y0) der
  let fin := ((List.range (m - 1)).map (· + 1)).foldl (cinitIter h f m s rk) (y0, 0, yms1, der1)
  (fin.2.2.1, fin.2.2.2)

/-- `cplx_adams4pc` from `multistep.c`. -/
def cplx_adams4pc (h x : ℚ) (f : CDer) (m s : ℕ) (y : CVec) (iter : ℕ)
    (der ynext : CVec) : CVec × CVec × List (ℚ × CVec) :=
  let p := cplx_general_multistep h x f m s y ADAMS4_LEFT ADAMS4_PRED 0 der ynext
  match iter with
  | 0 => p
  | k + 1 =>
      let c := cplx_general_multistep h x f m s y ADAMS4_LEFT ADAMS4_CORR (k + 1) p.2.1 p.1
      (c.1, c.2.1, p.2.2 ++ c.2.2)

/-- `cplx_adams6pc` from `multistep.c`. -/
def cplx_adams6pc (h x : ℚ) (f : CDer) (m s : ℕ) (y : CVec) (iter : ℕ)
    (der ynext : CVec) : CVec × CVec × List (ℚ × CVec) :=
  let p := cplx_general_multistep h x f m s y ADAMS6_LEFT ADAMS6_PRED 0 der ynext
  match iter with
  | 0 => p
  | k + 1 =>
      let c := cplx_general_multistep h x f m s y ADAMS6_LEFT ADAMS6_CORR (k + 1) p.2.1 p.1
      (c.1, c.2.1, p.2.2 ++ c.2.2)

/-! ## Embedding of real data into the complex variant -/

/-- Embed a real scalar as a complex scalar with zero imaginary part. -/
def emb (r : ℚ) : Cplx := (r, 0)

/-- Embed a real buffer componentwise. -/
def embV (u : RVec) : CVec := fun i => emb (u i)

/-- Embed a real callback trace. -/
def embTrace (l : List (ℚ × RVec)) : List (ℚ × CVec) :=
  l.map (fun p => (p.1, embV p.2))

/-- Embed a `(ynext, der, trace)` stepper result. -/
def embRes (r : RVec × RVec × List (ℚ × RVec)) : CVec × CVec × List (ℚ × CVec) :=
  (embV r.1, embV r.2.1, embTrace r.2.2)

/-- Embed a `(buffer, buffer)` pair. -/
def embPair (r : RVec × RVec) : CVec × CVec := (embV r.1, embV r.2)

/-- Embed a `(ynext, trace)` single-step result. -/
def embStep (r : RVec × List (ℚ × RVec)) : CVec × List (ℚ × CVec) :=
  (embV r.1, embTrace r.2)

/-- The state quadruple `(ywork, inp.x, state history, derivative history)`
of the bootstrap of `init_real_multistep` after the loop passes
`i = 1, ..., k`. -/
def initFoldState (h : ℚ) (f : RDer) (m s : ℕ) (rk : RKR) (y0 yms der : RVec) (k : ℕ) :
    RVec × ℚ × RVec × RVec :=
  ((List.range k).map (· + 1)).foldl (initIter h f m s rk)
    (y0, 0, writeBlock s (m - 1) y0 yms, writeBlock s (m - 1) (f 0 y0) der)

/-! ## Concrete sample data used to instantiate the theorems -/

/-- Constant zero buffer. -/
def wZero : RVec := fun _ => 0

/-- Constant one buffer. -/
def wOne : RVec := fun _ => 1

/-- Constant two buffer. -/
def wTwo : RVec := fun _ => 2

/-- Constant three buffer. -/
def wThree : RVec := fun _ => 3

/-- Sample callback: the derivative equals the state (`y' = y`). -/
def wDerId : RDer := fun _ u => u

/-- Sample callback: zero derivative (`y' = 0`). -/
def wDerZero : RDer := fun _ _ => wZero

/-- Sample callback: constant derivative one (`y' = 1`). -/
def wDerOne : RDer := fun _ _ => wOne

/-- Sample single-step routine: hold the state at `wOne`. -/
def wRkConst : RKR := fun _ _ _ => wOne

/-- Sample trajectory: constantly `wOne`. -/
def wSolOne : ℚ → RVec := fun _ => wOne

/-- Sample corrector iterate sequence: constantly `wZero`. -/
def wSeqZ : ℕ → RVec := fun _ => wZero

/-- Sample `b` coefficients with `b 0 = 0`. -/
def wBzero : RVec := fun j => if j = 0 then 0 else 1

/-- Sample `b` coefficients equal to `wBzero` except at `b 0`. -/
def wBnine : RVec := fun j => if j = 0 then 9/24 else 1

/-- Stage `k1` of the order-4 sample step. -/
def wk1 : RVec := wDerOne 0 wZero

/-- Stage `k2` of the order-4 sample step. -/
def wk2 : RVec := wDerOne (0 + 1 / 2) (fun t => wZero t + 1 / 2 * wk1 t)

/-- Stage `k3` of the order-4 sample step. -/
def wk3 : RVec := wDerOne (0 + 1 / 2) (fun t => wZero t + 1 / 2 * wk2 t)

/-- Stage `k4` of the order-4 sample step. -/
def wk4 : RVec := wDerOne (0 + 1) (fun t => wZero t + 1 * wk3 t)

/-- Stage `k1` of the order-5 sample step. -/
def wm1 : RVec := wDerOne 0 wZero

/-- Stage `k2` of the order-5 sample step. -/
def wm2 : RVec := wDerOne (0 + 1 / 4) (fun t => wZero t + 1 / 4 * wm1 t)

/-- Stage `k3` of the order-5 sample step. -/
def wm3 : RVec := wDerOne (0 + 1 / 4) (fun t => wZero t + 1 / 8 * (wm1 t + wm2 t))

/-- Stage `k4` of the order-5 sample step. -/
def wm4 : RVec := wDerOne (0 + 1 / 2) (fun t => wZero t + 1 / 2 * wm3 t)

/-- Stage `k5` of the order-5 sample step. -/
def wm5 : RVec := wDerOne (0 + 3 * 1 / 4)
  (fun t => wZero t + 1 / 16 * (3 * wm1 t - 6 * wm2 t + 6 * wm3 t + 9 * wm4 t))

/-- Stage `k6` of the order-5 sample step. -/
def wm6 : RVec := wDerOne (0 + 1)
  (fun t => wZero t + 1 / 7 * (-3 * wm1 t + 8 * wm2 t + 6 * wm3 t - 12 * wm4 t + 8 * wm5 t))

/-- Identity-like sample real callback for the refinement instance. -/
def wIdR : RDer := fun _ u => u

/-- Identity-like sample complex callback for the refinement instance. -/
def wIdC : CDer := fun _ u => u

/-- Identity-like sample real single-step routine. -/
def wIdRK : RKR := fun _ _ u => u

/-- Identity-like sample complex single-step routine. -/
def wIdCK : CKR := fun _ _ u => u

/-! ## Helper lemmas -/

theorem writeBlock_hit {α : Type} (s blk : ℕ) (src buf : ℕ → α) (idx : ℕ)
    (h1 : blk * s ≤ idx) (h2 : idx < blk * s + s) :
    writeBlock s blk src buf idx = src (idx - blk * s) := by
  simp [writeBlock, h1, h2]

theorem writeBlock_miss {α : Type} (s blk : ℕ) (src buf : ℕ → α) (idx : ℕ)
    (h : ¬(blk * s ≤ idx ∧ idx < blk * s + s)) :
    writeBlock s blk src buf idx = buf idx := by
  simp only [writeBlock, if_neg h]

/-- An index inside block `j < m` lies below `m * s`. -/
theorem blockIdx_lt {j m s i : ℕ} (hj : j < m) (hi : i < s) : j * s + i < m * s := by
  have h1 : (j + 1) * s ≤ m * s := Nat.mul_le_mul_right s (by omega)
  have h2 : (j + 1) * s = j * s + s := by ring
  omega

/-- Closed form of the descending shift loop: indices in `[s, (k+1)*s)`
read one block younger, everything else is untouched. -/
theorem shiftLoop_spec {α : Type} (s : ℕ) (k : ℕ) (buf : ℕ → α) (idx : ℕ) :
    shiftLoop s k buf idx =
      if s ≤ idx ∧ idx < (k + 1) * s then buf (idx - s) else buf idx := by
  induction k generalizing buf with
  | zero =>
      have hc : ¬(s ≤ idx ∧ idx < (0 + 1) * s) := by omega
      simp only [shiftLoop, if_neg hc]
  | succ k ih =>
      have hs : (k + 1) * s + s = (k + 1 + 1) * s := by ring
      simp only [shiftLoop]
      rw [ih]
      by_cases h1 : s ≤ idx ∧ idx < (k + 1) * s
      · have hks : (k + 1) * s ≤ (k + 1 + 1) * s := Nat.mul_le_mul_right s (by omega)
        have hc : ¬((k + 1) * s ≤ idx - s ∧ idx - s < (k + 1) * s + s) := by
          intro hcon
          have hss : s ≤ (k + 1) * s := by
            have := Nat.mul_le_mul_right s (show 1 ≤ k + 1 by omega)
            simpa using this
          omega
        rw [if_pos h1, if_neg hc, if_pos (by omega)]
      · rw [if_neg h1]
        by_cases h2 : (k + 1) * s ≤ idx ∧ idx < (k + 1) * s + s
        · have hss : s ≤ (k + 1) * s := by
            have := Nat.mul_le_mul_right s (show 1 ≤ k + 1 by omega)
            simpa using this
          rw [if_pos h2, if_pos (by omega)]
        · rw [if_neg h2, if_neg (by omega)]

/-- Pointwise value of the new state history after `real_set_next_multistep`. -/
theorem set_next_fst (xnext : ℚ) (f : RDer) (m s : ℕ) (y der ynext : RVec) (idx : ℕ) :
    (real_set_next_multistep xnext f m s y der ynext).1 idx =
      if idx < s then ynext idx else if idx < m * s then y (idx - s) else y idx := by
  simp only [real_set_next_multistep]
  by_cases h1 : idx < s
  · rw [writeBlock_hit s 0 _ _ idx (by omega) (by omega)]
    simp [h1]
  · rw [writeBlock_miss s 0 _ _ idx (by omega), shiftLoop_spec, if_neg h1]
    by_cases h2 : idx < m * s
    · have hm : 1 ≤ m := by
        by_contra hm
        have hz : m = 0 := by omega
        subst hz
        simp at h2
      have heq : (m - 1 + 1) * s = m * s := by
        congr 1
        omega
      have hc : s ≤ idx ∧ idx < (m - 1 + 1) * s := by
        refine ⟨by omega, ?_⟩
        rw [heq]
        exact h2
      rw [if_pos hc, if_pos h2]
    · have hc : ¬(s ≤ idx ∧ idx < (m - 1 + 1) * s) := by
        rcases Nat.eq_zero_or_pos m with hm | hm
        · subst hm
          omega
        · have hle : (m - 1 + 1) * s ≤ m * s := Nat.mul_le_mul_right s (by omega)
          intro hcon
          exact h2 (lt_of_lt_of_le hcon.2 hle)
      rw [if_neg hc, if_neg h2]

/-- Pointwise value of the new derivative history after `real_set_next_multistep`. -/
theorem set_next_snd (xnext : ℚ) (f : RDer) (m s : ℕ) (y der ynext : RVec) (idx : ℕ) :
    (real_set_next_multistep xnext f m s y der ynext).2 idx =
      if idx < s then f xnext ynext idx else if idx < m * s then der (idx - s) else der idx := by
  simp only [real_set_next_multistep]
  by_cases h1 : idx < s
  · rw [writeBlock_hit s 0 _ _ idx (by omega) (by omega)]
    simp [h1]
  · rw [writeBlock_miss s 0 _ _ idx (by omega), shiftLoop_spec, if_neg h1]
    by_cases h2 : idx < m * s
    · have hm : 1 ≤ m := by
        by_contra hm
        have hz : m = 0 := by omega
        subst hz
        simp at h2
      have heq : (m - 1 + 1) * s = m * s := by
        congr 1
        omega
      have hc : s ≤ idx ∧ idx < (m - 1 + 1) * s := by
        refine ⟨by omega, ?_⟩
        rw [heq]
        exact h2
      rw [if_pos hc, if_pos h2]
    · have hc : ¬(s ≤ idx ∧ idx < (m - 1 + 1) * s) := by
        rcases Nat.eq_zero_or_pos m with hm | hm
        · subst hm
          omega
        · have hle : (m - 1 + 1) * s ≤ m * s := Nat.mul_le_mul_right s (by omega)
          intro hcon
          exact h2 (lt_of_lt_of_le hcon.2 hle)
      rw [if_neg hc, if_neg h2]

theorem msAccum_zero (h : ℚ) (s : ℕ) (y der a b : RVec) (i : ℕ) (c : ℚ) :
    msAccum h s y der a b i c 0 = c := rfl

theorem msAccum_succ (h : ℚ) (s : ℕ) (y der a b : RVec) (i : ℕ) (c : ℚ) (m : ℕ) :
    msAccum h s y der a b i c (m + 1) =
      msAccum h s y der a b i c m + h * b (m + 1) * der (i + m * s) - a (m + 1) * y (i + m * s) := by
  simp [msAccum, List.range_succ]

/-- The accumulation loop equals the block-indexed sum of the multistep
recurrence terms (in `ℚ` the left-to-right order of the loop and the sum
agree). -/
theorem msAccum_eq_sum (h : ℚ) (s : ℕ) (y der a b : RVec) (i : ℕ) (c : ℚ) (m : ℕ) :
    msAccum h s y der a b i c m =
      c + ∑ t ∈ Finset.range m, (h * b (t + 1) * der (t * s + i) - a (t + 1) * y (t * s + i)) := by
  induction m with
  | zero => simp [msAccum_zero]
  | succ m ih =>
      rw [msAccum_succ, ih, Finset.sum_range_succ]
      have e1 : i + m * s = m * s + i := Nat.add_comm _ _
      rw [e1]
      ring

/-- The accumulation loop reads only the history entries `i + t * s` with
`t < m` of the derivative buffer. -/
theorem msAccum_der_ext (h : ℚ) (s : ℕ) (y a b : RVec) (i : ℕ) (c : ℚ) (m : ℕ)
    (der1 der2 : RVec) (hd : ∀ t, t < m → der1 (i + t * s) = der2 (i + t * s)) :
    msAccum h s y der1 a b i c m = msAccum h s y der2 a b i c m := by
  induction m with
  | zero => rfl
  | succ m ih =>
      rw [msAccum_succ, msAccum_succ, ih (fun t ht => hd t (by omega)), hd m (by omega)]

/-- The accumulation loop reads only the entries `b 1, ..., b m` of `b`. -/
theorem msAccum_b_ext (h : ℚ) (s : ℕ) (y der a : RVec) (i : ℕ) (c : ℚ) (m : ℕ)
    (b b' : RVec) (hb : ∀ j, j ≠ 0 → b j = b' j) :
    msAccum h s y der a b i c m = msAccum h s y der a b' i c m := by
  induction m with
  | zero => rfl
  | succ m ih => rw [msAccum_succ, msAccum_succ, ih, hb (m + 1) (by omega)]

/-- Frame property of the corrector loop: the derivative history changes
only inside the scratch block `m` (indices `[m*s, m*s + s)`), and the
next-state buffer changes only at components below `s`. -/
theorem corrLoop_frame (h x : ℚ) (f : RDer) (m s : ℕ) (y a b : RVec) :
    ∀ (k : ℕ) (der yn : RVec),
      (∀ t, ¬(m * s ≤ t ∧ t < m * s + s) →
        (realCorrectorLoop h x f m s y a b k der yn).2.1 t = der t) ∧
      (∀ t, s ≤ t → (realCorrectorLoop h x f m s y a b k der yn).1 t = yn t) := by
  intro k
  induction k with
  | zero => intro der yn; exact ⟨fun t _ => rfl, fun t _ => rfl⟩
  | succ k ih =>
      intro der yn
      constructor
      · intro t ht
        simp only [realCorrectorLoop]
        rw [(ih _ _).1 t ht]
        exact writeBlock_miss s m _ _ t ht
      · intro t ht
        simp only [realCorrectorLoop]
        rw [(ih _ _).2 t ht]
        simp only [if_neg (show ¬t < s by omega)]

/-- The corrector loop realises the fixed-point iteration `seq`: when
`seq` satisfies the corrector recurrence (new component `i < s` equal to
`h*b[0]*f(x+h, previous iterate)[i]` plus the history sum, other
components untouched), running `k` passes starting from `seq t` lands on
`seq (t + k)` and evaluates the callback at `(x+h, seq t), ...,
(x+h, seq (t+k-1))` in order. -/
theorem corrLoop_seq (h x : ℚ) (f : RDer) (m s : ℕ) (y a b der : RVec) (seq : ℕ → RVec)
    (hstep1 : ∀ k i, i < s → seq (k + 1) i =
      h * b 0 * f (x + h) (seq k) i +
        ∑ j ∈ Finset.range m, (h * b (j + 1) * der (j * s + i) - a (j + 1) * y (j * s + i)))
    (hstep2 : ∀ k i, ¬i < s → seq (k + 1) i = seq k i) :
    ∀ (k t : ℕ) (der' : RVec), (∀ u, u < m * s → der' u = der u) →
      (realCorrectorLoop h x f m s y a b k der' (seq t)).1 = seq (t + k) ∧
      (realCorrectorLoop h x f m s y a b k der' (seq t)).2.2 =
        (List.range k).map (fun j => (x + h, seq (t + j))) := by
  intro k
  induction k with
  | zero => intro t der' _; exact ⟨rfl, rfl⟩
  | succ k ih =>
      intro t der' hder
      have hyn : (fun i => if i < s then
          msAccum h s y (writeBlock s m (f (x + h) (seq t)) der') a b i
            (h * b 0 * writeBlock s m (f (x + h) (seq t)) der' (i + m * s)) m
          else seq t i) = seq (t + 1) := by
        funext i
        by_cases hi : i < s
        · rw [if_pos hi]
          have hscr : writeBlock s m (f (x + h) (seq t)) der' (i + m * s) =
              f (x + h) (seq t) i := by
            rw [writeBlock_hit s m _ _ (i + m * s) (by omega) (by omega)]
            congr 1
            omega
          have hhist : msAccum h s y (writeBlock s m (f (x + h) (seq t)) der') a b i
              (h * b 0 * writeBlock s m (f (x + h) (seq t)) der' (i + m * s)) m =
              msAccum h s y der a b i
                (h * b 0 * writeBlock s m (f (x + h) (seq t)) der' (i + m * s)) m := by
            apply msAccum_der_ext
            intro u hu
            have hlt : i + u * s < m * s := by
              have := blockIdx_lt hu hi
              omega
            rw [writeBlock_miss s m _ _ (i + u * s) (by omega), hder _ hlt]
          rw [hhist, hscr, msAccum_eq_sum, hstep1 t i hi]
        · rw [if_neg hi, hstep2 t i hi]
      have hder1 : ∀ u, u < m * s →
          writeBlock s m (f (x + h) (seq t)) der' u = der u := by
        intro u hu
        rw [writeBlock_miss s m _ _ u (by omega)]
        exact hder u hu
      simp only [realCorrectorLoop]
      rw [hyn]
      refine ⟨?_, ?_⟩
      · rw [(ih (t + 1) _ hder1).1]
        exact congrArg seq (by omega)
      · rw [(ih (t + 1) _ hder1).2, List.range_succ_eq_map]
        simp only [List.map_cons, List.map_map]
        refine congrArg₂ _ (by rw [Nat.add_zero]) ?_
        apply List.map_congr_left
        intro j _
        simp only [Function.comp_apply]
        refine congrArg _ (congrArg seq ?_)
        omega

/-- `init_real_multistep` returns the last two components of the final
bootstrap fold state. -/
theorem init_eq_fold (h : ℚ) (f : RDer) (m s : ℕ) (rk : RKR) (y0 yms der : RVec) :
    init_real_multistep h f m s rk y0 yms der =
      ((initFoldState h f m s rk y0 yms der (m - 1)).2.2.1,
       (initFoldState h f m s rk y0 yms der (m - 1)).2.2.2) := rfl

/-- Invariant of the bootstrap loop: after the passes `i = 1, ..., k` the
working state is `bootChain k`, the grid point is `k*h`, and every block
`j` with `m - 1 - k ≤ j ≤ m - 1` holds `bootChain (m-1-j)` and the
callback evaluated at `((m-1-j)*h, bootChain (m-1-j))`. -/
theorem initFold_inv (h : ℚ) (f : RDer) (m s : ℕ) (rk : RKR) (y0 yms der : RVec) :
    ∀ k, k ≤ m - 1 →
      (initFoldState h f m s rk y0 yms der k).1 = bootChain h rk y0 k ∧
      (initFoldState h f m s rk y0 yms der k).2.1 = (k : ℚ) * h ∧
      (∀ j i, i < s → m - 1 - k ≤ j → j ≤ m - 1 →
        (initFoldState h f m s rk y0 yms der k).2.2.1 (j * s + i) =
          bootChain h rk y0 (m - 1 - j) i ∧
        (initFoldState h f m s rk y0 yms der k).2.2.2 (j * s + i) =
          f (((m - 1 - j : ℕ) : ℚ) * h) (bootChain h rk y0 (m - 1 - j)) i) := by
  intro k
  induction k with
  | zero =>
      intro _
      refine ⟨rfl, by simp [initFoldState], ?_⟩
      intro j i hi hj1 hj2
      have hj : j = m - 1 := by omega
      subst hj
      have hz : m - 1 - (m - 1) = 0 := by omega
      rw [hz]
      have hidx : (m - 1) * s + i - (m - 1) * s = i := by omega
      constructor
      · show writeBlock s (m - 1) y0 yms ((m - 1) * s + i) = bootChain h rk y0 0 i
        rw [writeBlock_hit s (m - 1) _ _ _ (by omega) (by omega), hidx]
        rfl
      · show writeBlock s (m - 1) (f 0 y0) der ((m - 1) * s + i) =
          f (((0 : ℕ) : ℚ) * h) (bootChain h rk y0 0) i
        rw [writeBlock_hit s (m - 1) _ _ _ (by omega) (by omega), hidx]
        norm_num [bootChain]
  | succ k ih =>
      intro hk
      obtain ⟨ih1, ih2, ih3⟩ := ih (by omega)
      have hstep : initFoldState h f m s rk y0 yms der (k + 1) =
          initIter h f m s rk (initFoldState h f m s rk y0 yms der k) (k + 1) := by
        simp [initFoldState, List.range_succ]
      have hynew : rk h (initFoldState h f m s rk y0 yms der k).2.1
          (initFoldState h f m s rk y0 yms der k).1 = bootChain h rk y0 (k + 1) := by
        rw [ih1, ih2]
        rfl
      refine ⟨?_, ?_, ?_⟩
      · rw [hstep]
        exact hynew
      · rw [hstep]
        rfl
      · intro j i hi hj1 hj2
        rw [hstep]
        by_cases hj : j = m - 1 - (k + 1)
        · subst hj
          have hm1j : m - 1 - (m - 1 - (k + 1)) = k + 1 := by omega
          have hidx : (m - 1 - (k + 1)) * s + i - (m - 1 - (k + 1)) * s = i := by omega
          constructor
          · show writeBlock s (m - 1 - (k + 1))
                (rk h (initFoldState h f m s rk y0 yms der k).2.1
                  (initFoldState h f m s rk y0 yms der k).1)
                (initFoldState h f m s rk y0 yms der k).2.2.1
                ((m - 1 - (k + 1)) * s + i) = _
            rw [writeBlock_hit s (m - 1 - (k + 1)) _ _ _ (by omega) (by omega), hidx,
              hynew, hm1j]
          · show writeBlock s (m - 1 - (k + 1))
                (f (((k + 1 : ℕ) : ℚ) * h)
                  (rk h (initFoldState h f m s rk y0 yms der k).2.1
                    (initFoldState h f m s rk y0 yms der k).1))
                (initFoldState h f m s rk y0 yms der k).2.2.2
                ((m - 1 - (k + 1)) * s + i) = _
            rw [writeBlock_hit s (m - 1 - (k + 1)) _ _ _ (by omega) (by omega), hidx,
              hynew, hm1j]
        · have hjge : m - 1 - (k + 1) + 1 ≤ j := by omega
          have hmul : (m - 1 - (k + 1) + 1) * s ≤ j * s := Nat.mul_le_mul_right s hjge
          have hms : (m - 1 - (k + 1) + 1) * s = (m - 1 - (k + 1)) * s + s := by ring
          have hmiss : ¬((m - 1 - (k + 1)) * s ≤ j * s + i ∧
              j * s + i < (m - 1 - (k + 1)) * s + s) := by omega
          obtain ⟨ihy, ihd⟩ := ih3 j i hi (by omega) hj2
          constructor
          · show writeBlock s (m - 1 - (k + 1)) _
                (initFoldState h f m s rk y0 yms der k).2.2.1 (j * s + i) = _
            rw [writeBlock_miss s (m - 1 - (k + 1)) _ _ _ hmiss]
            exact ihy
          · show writeBlock s (m - 1 - (k + 1)) _
                (initFoldState h f m s rk y0 yms der k).2.2.2 (j * s + i) = _
            rw [writeBlock_miss s (m - 1 - (k + 1)) _ _ _ hmiss]
            exact ihd

/-! ## Embedding lemmas for the complex variants -/

theorem cadd_emb (a b : ℚ) : cadd (emb a) (emb b) = emb (a + b) := by
  simp [cadd, emb]

theorem csub_emb (a b : ℚ) : csub (emb a) (emb b) = emb (a - b) := by
  simp [csub, emb]

theorem rsc_emb (r t : ℚ) : rsc r (emb t) = emb (r * t) := by
  simp [rsc, emb]

theorem writeBlock_embV (s blk : ℕ) (src buf : RVec) :
    writeBlock s blk (embV src) (embV buf) = embV (writeBlock s blk src buf) := by
  funext idx
  simp only [writeBlock, embV]
  split <;> rfl

theorem shiftLoop_embV (s : ℕ) : ∀ (k : ℕ) (buf : RVec),
    shiftLoop s k (embV buf) = embV (shiftLoop s k buf) := by
  intro k
  induction k with
  | zero => intro buf; rfl
  | succ k ih =>
      intro buf
      simp only [shiftLoop]
      have hin : (fun idx => if (k + 1) * s ≤ idx ∧ idx < (k + 1) * s + s then
            embV buf (idx - s) else embV buf idx) =
          embV (fun idx => if (k + 1) * s ≤ idx ∧ idx < (k + 1) * s + s then
            buf (idx - s) else buf idx) := by
        funext idx
        simp only [embV]
        split <;> rfl
      rw [hin, ih]

/-- The complex order-2 step on embedded data is the embedding of the real
order-2 step. -/
theorem rk2_equiv (fr : RDer) (fc : CDer) (hf : ∀ x u, fc x (embV u) = embV (fr x u))
    (h x : ℚ) (y : RVec) :
    cplx_rungekutta2 h x fc (embV y) = embStep (real_rungekutta2 h x fr y) := by
  simp only [cplx_rungekutta2, real_rungekutta2, embStep, embTrace, List.map_cons, List.map_nil]
  rw [hf x y]
  have e1 : (fun i => cadd (rsc h (embV (fr x y) i)) (embV y i)) =
      embV (fun i => h * fr x y i + y i) := by
    funext i
    simp [embV, emb, cadd, rsc]
  rw [e1, hf (x + h) (fun i => h * fr x y i + y i)]
  simp only [Prod.mk.injEq, and_true]
  funext i
  simp [embV, emb, cadd, rsc]

/-- The complex order-4 step on embedded data is the embedding of the real
order-4 step. -/
theorem rk4_equiv (fr : RDer) (fc : CDer) (hf : ∀ x u, fc x (embV u) = embV (fr x u))
    (h x : ℚ) (y : RVec) :
    cplx_rungekutta4 h x fc (embV y) = embStep (real_rungekutta4 h x fr y) := by
  simp only [cplx_rungekutta4, real_rungekutta4, embStep, embTrace, List.map_cons, List.map_nil]
  rw [hf x y]
  have e1 : (fun i => cadd (rsc (1/2 * h) (embV (fr x y) i)) (embV y i)) =
      embV (fun i => 1/2 * h * fr x y i + y i) := by
    funext i
    simp [embV, emb, cadd, rsc]
  rw [e1, hf (x + 1/2 * h) (fun i => 1/2 * h * fr x y i + y i)]
  have e2 : (fun i => cadd (rsc (1/2 * h)
        (embV (fr (x + 1/2 * h) (fun i => 1/2 * h * fr x y i + y i)) i)) (embV y i)) =
      embV (fun i => 1/2 * h * fr (x + 1/2 * h) (fun i => 1/2 * h * fr x y i + y i) i + y i) := by
    funext i
    simp [embV, emb, cadd, rsc]
  rw [e2, hf (x + 1/2 * h)
    (fun i => 1/2 * h * fr (x + 1/2 * h) (fun i => 1/2 * h * fr x y i + y i) i + y i)]
  have e3 : (fun i => cadd (rsc h (embV (fr (x + 1/2 * h)
        (fun i => 1/2 * h * fr (x + 1/2 * h) (fun i => 1/2 * h * fr x y i + y i) i + y i)) i))
        (embV y i)) =
      embV (fun i => h * fr (x + 1/2 * h)
        (fun i => 1/2 * h * fr (x + 1/2 * h) (fun i => 1/2 * h * fr x y i + y i) i + y i) i
        + y i) := by
    funext i
    simp [embV, emb, cadd, rsc]
  rw [e3, hf (x + h) (fun i => h * fr (x + 1/2 * h)
    (fun i => 1/2 * h * fr (x + 1/2 * h) (fun i => 1/2 * h * fr x y i + y i) i + y i) i + y i)]
  simp only [Prod.mk.injEq, and_true]
  funext i
  simp only [embV, emb, cadd, rsc, Prod.mk.injEq]
  exact ⟨by ring, by ring⟩

/-- The complex order-5 step on embedded data is the embedding of the real
order-5 step. -/
theorem rk5_equiv (fr : RDer) (fc : CDer) (hf : ∀ x u, fc x (embV u) = embV (fr x u))
    (h x : ℚ) (y : RVec) :
    cplx_rungekutta5 h x fc (embV y) = embStep (real_rungekutta5 h x fr y) := by
  simp only [cplx_rungekutta5, real_rungekutta5, embStep, embTrace, List.map_cons, List.map_nil]
  rw [hf x y]
  have e1 : (fun i => cadd (embV y i) (rsc (h / 4) (embV (fr x y) i))) =
      embV (fun i => y i + h / 4 * fr x y i) := by
    funext i
    simp [embV, emb, cadd, rsc]
  rw [e1, hf (x + 1/4 * h) (fun i => y i + h / 4 * fr x y i)]
  have e2 : (fun i => cadd (embV y i) (rsc (h / 8) (cadd (embV (fr x y) i)
        (embV (fr (x + 1/4 * h) (fun i => y i + h / 4 * fr x y i)) i)))) =
      embV (fun i => y i + h / 8 *
        (fr x y i + fr (x + 1/4 * h) (fun i => y i + h / 4 * fr x y i) i)) := by
    funext i
    simp [embV, emb, cadd, rsc]
  rw [e2, hf (x + 1/4 * h) (fun i => y i + h / 8 *
    (fr x y i + fr (x + 1/4 * h) (fun i => y i + h / 4 * fr x y i) i))]
  have e3 : (fun i => cadd (embV y i) (rsc (h / 2) (embV (fr (x + 1/4 * h)
        (fun i => y i + h / 8 *
          (fr x y i + fr (x + 1/4 * h) (fun i => y i + h / 4 * fr x y i) i))) i))) =
      embV (fun i => y i + h / 2 * fr (x + 1/4 * h)
        (fun i => y i + h / 8 *
          (fr x y i + fr (x + 1/4 * h) (fun i => y i + h / 4 * fr x y i) i)) i) := by
    funext i
    simp [embV, emb, cadd, rsc]
  rw [e3, hf (x + 1/2 * h) (fun i => y i + h / 2 * fr (x + 1/4 * h)
    (fun i => y i + h / 8 *
      (fr x y i + fr (x + 1/4 * h) (fun i => y i + h / 4 * fr x y i) i)) i)]
  set K1 : RVec := fr x y with hK1
  set K2 : RVec := fr (x + 1/4 * h) (fun i => y i + h / 4 * K1 i) with hK2
  set K3 : RVec := fr (x + 1/4 * h) (fun i => y i + h / 8 * (K1 i + K2 i)) with hK3
  set K4 : RVec := fr (x + 1/2 * h) (fun i => y i + h / 2 * K3 i) with hK4
  have e4 : (fun i => cadd (embV y i) (rsc (h / 16)
        (cadd (cadd (csub (rsc 3 (embV K1 i)) (rsc 6 (embV K2 i))) (rsc 6 (embV K3 i)))
          (rsc 9 (embV K4 i))))) =
      embV (fun i => y i + h / 16 * (3 * K1 i - 6 * K2 i + 6 * K3 i + 9 * K4 i)) := by
    funext i
    simp only [embV, emb, cadd, csub, rsc, Prod.mk.injEq]
    exact ⟨by ring_nf, by ring_nf⟩
  rw [e4, hf (x + 3/4 * h)
    (fun i => y i + h / 16 * (3 * K1 i - 6 * K2 i + 6 * K3 i + 9 * K4 i))]
  set K5 : RVec := fr (x + 3/4 * h)
    (fun i => y i + h / 16 * (3 * K1 i - 6 * K2 i + 6 * K3 i + 9 * K4 i)) with hK5
  have e5 : (fun i => cadd (embV y i) (rsc (h / 7)
        (cadd (csub (cadd (cadd (rsc (-3) (embV K1 i)) (rsc 8 (embV K2 i))) (rsc 6 (embV K3 i)))
          (rsc 12 (embV K4 i))) (rsc 8 (embV K5 i))))) =
      embV (fun i => y i + h / 7 *
        (-3 * K1 i + 8 * K2 i + 6 * K3 i - 12 * K4 i + 8 * K5 i)) := by
    funext i
    simp only [embV, emb, cadd, csub, rsc, Prod.mk.injEq]
    exact ⟨by ring_nf, by ring_nf⟩
  rw [e5, hf (x + h) (fun i => y i + h / 7 *
    (-3 * K1 i + 8 * K2 i + 6 * K3 i - 12 * K4 i + 8 * K5 i))]
  simp only [Prod.mk.injEq, and_true]
  funext i
  simp only [embV, emb, cadd, csub, rsc, Prod.mk.injEq]
  exact ⟨by ring_nf, by ring_nf⟩

theorem cmsAccum_succ (h : ℚ) (s : ℕ) (y der : CVec) (a b : RVec) (i : ℕ) (c : Cplx) (m : ℕ) :
    cmsAccum h s y der a b i c (m + 1) =
      csub (cadd (cmsAccum h s y der a b i c m) (rsc (h * b (m + 1)) (der (i + m * s))))
        (rsc (a (m + 1)) (y (i + m * s))) := by
  simp [cmsAccum, List.range_succ]

theorem cmsAccum_emb (h : ℚ) (s : ℕ) (y der a b : RVec) (i : ℕ) (c : ℚ) (m : ℕ) :
    cmsAccum h s (embV y) (embV der) a b i (emb c) m = emb (msAccum h s y der a b i c m) := by
  induction m with
  | zero => rfl
  | succ m ih =>
      rw [cmsAccum_succ, msAccum_succ, ih,
        show embV der (i + m * s) = emb (der (i + m * s)) from rfl,
        show embV y (i + m * s) = emb (y (i + m * s)) from rfl,
        rsc_emb, rsc_emb, cadd_emb, csub_emb]

/-- The complex general multistep step on embedded data is the embedding
of the real general multistep step, for every iteration count. -/
theorem gms_equiv (fr : RDer) (fc : CDer) (hf : ∀ x u, fc x (embV u) = embV (fr x u))
    (h x : ℚ) (m s : ℕ) (y a b : RVec) (iter : ℕ) (der ynext : RVec) :
    cplx_general_multistep h x fc m s (embV y) a b iter (embV der) (embV ynext) =
      embRes (real_general_multistep h x fr m s y a b iter der ynext) := by
  have corr : ∀ (k : ℕ) (der yn : RVec),
      cplxCorrectorLoop h x fc m s (embV y) a b k (embV der) (embV yn) =
        (embV (realCorrectorLoop h x fr m s y a b k der yn).1,
         embV (realCorrectorLoop h x fr m s y a b k der yn).2.1,
         embTrace (realCorrectorLoop h x fr m s y a b k der yn).2.2) := by
    intro k
    induction k with
    | zero => intro der yn; rfl
    | succ k ih =>
        intro der yn
        have hder1 : writeBlock s m (fc (x + h) (embV yn)) (embV der) =
            embV (writeBlock s m (fr (x + h) yn) der) := by
          rw [hf (x + h) yn, writeBlock_embV]
        have hyn1 : (fun i => if i < s then
              cmsAccum h s (embV y) (embV (writeBlock s m (fr (x + h) yn) der)) a b i
                (rsc (h * b 0)
                  (embV (writeBlock s m (fr (x + h) yn) der) (i + m * s))) m
            else embV yn i) =
            embV (fun i => if i < s then
              msAccum h s y (writeBlock s m (fr (x + h) yn) der) a b i
                (h * b 0 * writeBlock s m (fr (x + h) yn) der (i + m * s)) m
            else yn i) := by
          funext i
          show (if i < s then
              cmsAccum h s (embV y) (embV (writeBlock s m (fr (x + h) yn) der)) a b i
                (rsc (h * b 0) (embV (writeBlock s m (fr (x + h) yn) der) (i + m * s))) m
            else embV yn i) =
            emb (if i < s then
              msAccum h s y (writeBlock s m (fr (x + h) yn) der) a b i
                (h * b 0 * writeBlock s m (fr (x + h) yn) der (i + m * s)) m
            else yn i)
          by_cases hi : i < s
          · rw [if_pos hi, if_pos hi,
              show embV (writeBlock s m (fr (x + h) yn) der) (i + m * s) =
                emb (writeBlock s m (fr (x + h) yn) der (i + m * s)) from rfl,
              rsc_emb]
            exact cmsAccum_emb h s y (writeBlock s m (fr (x + h) yn) der) a b i _ m
          · rw [if_neg hi, if_neg hi]
            rfl
        simp only [cplxCorrectorLoop, realCorrectorLoop]
        rw [hder1, hyn1, ih]
        rfl
  cases iter with
  | zero =>
      simp only [cplx_general_multistep, real_general_multistep, embRes, embTrace, List.map_nil]
      have hfst : (fun i => if i < s then
            cmsAccum h s (embV y) (embV der) a b i ((0 : ℚ), (0 : ℚ)) m else embV ynext i) =
          embV (fun i => if i < s then msAccum h s y der a b i 0 m else ynext i) := by
        funext i
        show (if i < s then cmsAccum h s (embV y) (embV der) a b i ((0 : ℚ), (0 : ℚ)) m
            else embV ynext i) =
          emb (if i < s then msAccum h s y der a b i 0 m else ynext i)
        by_cases hi : i < s
        · rw [if_pos hi, if_pos hi]
          exact cmsAccum_emb h s y der a b i 0 m
        · rw [if_neg hi, if_neg hi]
          rfl
      exact congrArg₂ Prod.mk hfst rfl
  | succ k =>
      exact corr (k + 1) der ynext

/-- The complex history roll-forward on embedded data is the embedding of
the real roll-forward. -/
theorem set_next_equiv (fr : RDer) (fc : CDer) (hf : ∀ x u, fc x (embV u) = embV (fr x u))
    (xnext : ℚ) (m s : ℕ) (y der ynext : RVec) :
    cplx_set_next_multistep xnext fc m s (embV y) (embV der) (embV ynext) =
      embPair (real_set_next_multistep xnext fr m s y der ynext) := by
  simp only [cplx_set_next_multistep, real_set_next_multistep, embPair]
  rw [shiftLoop_embV, shiftLoop_embV, hf xnext ynext, writeBlock_embV, writeBlock_embV]

/-- The complex bootstrap fold on embedded data is the embedding of the
real bootstrap fold. -/
theorem initFold_equiv (fr : RDer) (fc : CDer) (hf : ∀ x u, fc x (embV u) = embV (fr x u))
    (rkr : RKR) (rkc : CKR) (hrk : ∀ h x u, rkc h x (embV u) = embV (rkr h x u))
    (h : ℚ) (m s : ℕ) :
    ∀ (l : List ℕ) (w : RVec) (xx : ℚ) (p q : RVec),
      l.foldl (cinitIter h fc m s rkc) (embV w, xx, embV p, embV q) =
        (embV ((l.foldl (initIter h fr m s rkr) (w, xx, p, q)).1),
         (l.foldl (initIter h fr m s rkr) (w, xx, p, q)).2.1,
         embV ((l.foldl (initIter h fr m s rkr) (w, xx, p, q)).2.2.1),
         embV ((l.foldl (initIter h fr m s rkr) (w, xx, p, q)).2.2.2)) := by
  intro l
  induction l with
  | nil => intro w xx p q; rfl
  | cons aa l ih =>
      intro w xx p q
      simp only [List.foldl_cons]
      have hstep : cinitIter h fc m s rkc (embV w, xx, embV p, embV q) aa =
          (embV (rkr h xx w), (aa : ℚ) * h,
           embV (writeBlock s (m - 1 - aa) (rkr h xx w) p),
           embV (writeBlock s (m - 1 - aa) (fr ((aa : ℚ) * h) (rkr h xx w)) q)) := by
        simp only [cinitIter]
        rw [hrk h xx w, hf ((aa : ℚ) * h) (rkr h xx w), writeBlock_embV, writeBlock_embV]
      rw [hstep, show initIter h fr m s rkr (w, xx, p, q) aa =
          ((rkr h xx w : RVec), ((aa : ℚ) * h,
            writeBlock s (m - 1 - aa) (rkr h xx w) p,
            writeBlock s (m - 1 - aa) (fr ((aa : ℚ) * h) (rkr h xx w)) q)) from rfl]
      exact ih (rkr h xx w) ((aa : ℚ) * h) (writeBlock s (m - 1 - aa) (rkr h xx w) p)
        (writeBlock s (m - 1 - aa) (fr ((aa : ℚ) * h) (rkr h xx w)) q)

/-- The complex bootstrap on embedded data is the embedding of the real
bootstrap. -/
theorem init_equiv (fr : RDer) (fc : CDer) (hf : ∀ x u, fc x (embV u) = embV (fr x u))
    (rkr : RKR) (rkc : CKR) (hrk : ∀ h x u, rkc h x (embV u) = embV (rkr h x u))
    (h : ℚ) (m s : ℕ) (y0 yms der : RVec) :
    init_cplx_multistep h fc m s rkc (embV y0) (embV yms) (embV der) =
      embPair (init_real_multistep h fr m s rkr y0 yms der) := by
  simp only [init_cplx_multistep, init_real_multistep, embPair]
  rw [hf 0 y0, writeBlock_embV, writeBlock_embV,
    initFold_equiv fr fc hf rkr rkc hrk h m s ((List.range (m - 1)).map (· + 1)) y0 0
      (writeBlock s (m - 1) y0 yms) (writeBlock s (m - 1) (fr 0 y0) der)]

/-- The complex 4th-order Adams wrapper on embedded data is the embedding
of the real wrapper. -/
theorem adams4_equiv (fr : RDer) (fc : CDer) (hf : ∀ x u, fc x (embV u) = embV (fr x u))
    (h x : ℚ) (m s : ℕ) (y : RVec) (iter : ℕ) (der ynext : RVec) :
    cplx_adams4pc h x fc m s (embV y) iter (embV der) (embV ynext) =
      embRes (real_adams4pc h x fr m s y iter der ynext) := by
  cases iter with
  | zero =>
      simp only [cplx_adams4pc, real_adams4pc]
      exact gms_equiv fr fc hf h x m s y ADAMS4_LEFT ADAMS4_PRED 0 der ynext
  | succ k =>
      simp only [cplx_adams4pc, real_adams4pc]
      rw [gms_equiv fr fc hf h x m s y ADAMS4_LEFT ADAMS4_PRED 0 der ynext]
      simp only [embRes]
      rw [gms_equiv fr fc hf h x m s y ADAMS4_LEFT ADAMS4_CORR (k + 1)
        (real_general_multistep h x fr m s y ADAMS4_LEFT ADAMS4_PRED 0 der ynext).2.1
        (real_general_multistep h x fr m s y ADAMS4_LEFT ADAMS4_PRED 0 der ynext).1]
      simp only [embRes, embTrace, List.map_append]

/-- The complex 6th-order Adams wrapper on embedded data is the embedding
of the real wrapper. -/
theorem adams6_equiv (fr : RDer) (fc : CDer) (hf : ∀ x u, fc x (embV u) = embV (fr x u))
    (h x : ℚ) (m s : ℕ) (y : RVec) (iter : ℕ) (der ynext : RVec) :
    cplx_adams6pc h x fc m s (embV y) iter (embV der) (embV ynext) =
      embRes (real_adams6pc h x fr m s y iter der ynext) := by
  cases iter with
  | zero =>
      simp only [cplx_adams6pc, real_adams6pc]
      exact gms_equiv fr fc hf h x m s y ADAMS6_LEFT ADAMS6_PRED 0 der ynext
  | succ k =>
      simp only [cplx_adams6pc, real_adams6pc]
      rw [gms_equiv fr fc hf h x m s y ADAMS6_LEFT ADAMS6_PRED 0 der ynext]
      simp only [embRes]
      rw [gms_equiv fr fc hf h x m s y ADAMS6_LEFT ADAMS6_CORR (k + 1)
        (real_general_multistep h x fr m s y ADAMS6_LEFT ADAMS6_PRED 0 der ynext).2.1
        (real_general_multistep h x fr m s y ADAMS6_LEFT ADAMS6_PRED 0 der ynext).1]
      simp only [embRes, embTrace, List.map_append]

/-! ## Claim theorems -/

/-- Claim C1: with `iter == 0` the general multistep step writes, for each
component `i < n`, the value
`ynext[i] = Σ_{j=1..m} (h*b[j]*der[(j-1)*n + i] - a[j]*y[(j-1)*n + i])`
into the output buffer (the loop accumulates the terms left to right in
increasing `j`; in the exact-rational model that accumulation equals the
sum), and never invokes the derivative function (empty call trace). -/
theorem C1_predictor_step (h x : ℚ) (f : RDer) (m s : ℕ) (y a b der ynext : RVec)
    (i : ℕ) (hi : i < s) :
    (real_general_multistep h x f m s y a b 0 der ynext).1 i =
      ∑ j ∈ Finset.range m, (h * b (j + 1) * der (j * s + i) - a (j + 1) * y (j * s + i)) ∧
    (real_general_multistep h x f m s y a b 0 der ynext).2.2 = [] := by
  constructor
  · show (if i < s then msAccum h s y der a b i 0 m else ynext i) = _
    rw [if_pos hi, msAccum_eq_sum, zero_add]
  · rfl

/-- Witness for C1 at `m = 1`, `n = 1`, `h = 1`, component `0`. -/
theorem C1_predictor_step_witness :
    (real_general_multistep 1 0 wDerId 1 1 wTwo wOne wOne 0 wThree wZero).1 0 =
      ∑ j ∈ Finset.range 1,
        ((1 : ℚ) * wOne (j + 1) * wThree (j * 1 + 0) - wOne (j + 1) * wTwo (j * 1 + 0)) ∧
    (real_general_multistep 1 0 wDerId 1 1 wTwo wOne wOne 0 wThree wZero).2.2 = [] :=
  C1_predictor_step 1 0 wDerId 1 1 wTwo wOne wOne wThree wZero 0 (by decide)

/-- Claim C2: with `iter > 0` the general multistep step performs exactly
`iter` fixed-point corrector passes.  Formally: whenever `seq` is the
sequence with `seq 0 = ynext` and
`seq (k+1) [i] = h*b[0]*f(x+h, seq k)[i] + Σ_{j=1..m} (h*b[j]*der[(j-1)n+i] - a[j]*y[(j-1)n+i])`
for `i < n` (other components untouched), the call returns `seq iter` in
the output buffer and its call trace is exactly
`(x+h, seq 0), ..., (x+h, seq (iter-1))`: each pass evaluates the
derivative function at grid point `x + h` on the `ynext` contents produced
by the previous pass. -/
theorem C2_corrector_iteration (h x : ℚ) (f : RDer) (m s : ℕ) (y a b der ynext : RVec)
    (iter : ℕ) (hiter : 0 < iter) (seq : ℕ → RVec)
    (hseq0 : seq 0 = ynext)
    (hstep1 : ∀ k i, i < s → seq (k + 1) i =
      h * b 0 * f (x + h) (seq k) i +
        ∑ j ∈ Finset.range m, (h * b (j + 1) * der (j * s + i) - a (j + 1) * y (j * s + i)))
    (hstep2 : ∀ k i, ¬i < s → seq (k + 1) i = seq k i) :
    (real_general_multistep h x f m s y a b iter der ynext).1 = seq iter ∧
    (real_general_multistep h x f m s y a b iter der ynext).2.2 =
      (List.range iter).map (fun k => (x + h, seq k)) := by
  obtain ⟨k, rfl⟩ : ∃ k, iter = k + 1 := ⟨iter - 1, by omega⟩
  have h0 := corrLoop_seq h x f m s y a b der seq hstep1 hstep2 (k + 1) 0 der (fun u _ => rfl)
  rw [hseq0] at h0
  constructor
  · show (realCorrectorLoop h x f m s y a b (k + 1) der ynext).1 = _
    rw [h0.1]
    exact congrArg seq (by omega)
  · show (realCorrectorLoop h x f m s y a b (k + 1) der ynext).2.2 = _
    rw [h0.2]
    apply List.map_congr_left
    intro j _
    rw [Nat.zero_add]

/-- Witness for C2 with one corrector pass on the degenerate system. -/
theorem C2_corrector_iteration_witness :
    (real_general_multistep 0 0 wDerId 0 0 wZero wOne wOne 1 wZero wZero).1 = wSeqZ 1 ∧
    (real_general_multistep 0 0 wDerId 0 0 wZero wOne wOne 1 wZero wZero).2.2 =
      (List.range 1).map (fun k => ((0 : ℚ) + 0, wSeqZ k)) :=
  C2_corrector_iteration 0 0 wDerId 0 0 wZero wOne wOne wZero wZero 1 (by decide) wSeqZ rfl
    (fun _ i hi => absurd hi (Nat.not_lt_zero i)) (fun _ _ _ => rfl)

/-- Claim C3: the history roll-forward moves every block one slot older
(`new block j = old block j-1` for `j` from `m-1` down to `1`, in both the
state history and the derivative history), writes the accepted state
`ynext` into state block `0` and the derivative function evaluated at
`(xnext, ynext)` into derivative block `0`. -/
theorem C3_set_next_rolls_history (xnext : ℚ) (f : RDer) (m s : ℕ) (y der ynext : RVec)
    (j i : ℕ) (hj1 : 1 ≤ j) (hjm : j < m) (hi : i < s) :
    ((real_set_next_multistep xnext f m s y der ynext).1 (j * s + i) = y ((j - 1) * s + i) ∧
     (real_set_next_multistep xnext f m s y der ynext).2 (j * s + i) = der ((j - 1) * s + i)) ∧
    ((real_set_next_multistep xnext f m s y der ynext).1 i = ynext i ∧
     (real_set_next_multistep xnext f m s y der ynext).2 i = f xnext ynext i) := by
  have hlt : j * s + i < m * s := blockIdx_lt hjm hi
  have hsle : s ≤ j * s := by
    have := Nat.mul_le_mul_right s hj1
    simpa using this
  have hsub : j * s + i - s = (j - 1) * s + i := by
    have hjs : j * s = (j - 1) * s + s := by
      have h1 : j - 1 + 1 = j := by omega
      calc j * s = (j - 1 + 1) * s := by rw [h1]
      _ = (j - 1) * s + s := by ring
    omega
  constructor
  · constructor
    · rw [set_next_fst, if_neg (by omega), if_pos hlt, hsub]
    · rw [set_next_snd, if_neg (by omega), if_pos hlt, hsub]
  · constructor
    · rw [set_next_fst, if_pos hi]
    · rw [set_next_snd, if_pos hi]

/-- Witness for C3 at `m = 2`, `n = 1`, block `j = 1`, component `0`. -/
theorem C3_set_next_rolls_history_witness :
    ((real_set_next_multistep 1 wDerId 2 1 wTwo wThree wOne).1 (1 * 1 + 0) =
        wTwo ((1 - 1) * 1 + 0) ∧
     (real_set_next_multistep 1 wDerId 2 1 wTwo wThree wOne).2 (1 * 1 + 0) =
        wThree ((1 - 1) * 1 + 0)) ∧
    ((real_set_next_multistep 1 wDerId 2 1 wTwo wThree wOne).1 0 = wOne 0 ∧
     (real_set_next_multistep 1 wDerId 2 1 wTwo wThree wOne).2 0 = wDerId 1 wOne 0) :=
  C3_set_next_rolls_history 1 wDerId 2 1 wTwo wThree wOne 1 0 (by decide) (by decide) (by decide)

/-- Claim C5: with `iter == 0` the general multistep step never reads
`b[0]`: two runs whose `b` coefficient arrays agree at every index other
than `0` (and whose other inputs coincide) return identical results; in
particular a corrector coefficient set with nonzero `b[0]` passed with
`iter == 0` behaves exactly like the explicit predictor call. -/
theorem C5_predictor_ignores_b0 (h x : ℚ) (f : RDer) (m s : ℕ) (y a b b' der ynext : RVec)
    (hb : ∀ j, j ≠ 0 → b j = b' j) :
    real_general_multistep h x f m s y a b 0 der ynext =
      real_general_multistep h x f m s y a b' 0 der ynext := by
  simp only [real_general_multistep]
  have hfn : (fun i => if i < s then msAccum h s y der a b i 0 m else ynext i) =
      (fun i => if i < s then msAccum h s y der a b' i 0 m else ynext i) := by
    funext i
    by_cases hi : i < s
    · rw [if_pos hi, if_pos hi, msAccum_b_ext h s y der a i 0 m b b' hb]
    · rw [if_neg hi, if_neg hi]
  rw [hfn]

/-- Witness for C5: `wBzero` (predictor-like, `b 0 = 0`) and `wBnine`
(corrector-like, `b 0 = 9/24`) differ only at index `0`. -/
theorem C5_predictor_ignores_b0_witness :
    real_general_multistep 1 0 wDerId 1 1 wTwo wOne wBzero 0 wThree wZero =
      real_general_multistep 1 0 wDerId 1 1 wTwo wOne wBnine 0 wThree wZero :=
  C5_predictor_ignores_b0 1 0 wDerId 1 1 wTwo wOne wBzero wBnine wThree wZero
    (fun j hj => by simp [wBzero, wBnine, hj])

/-- Counterexample to claim C8 as stated: the claim predicts `n` calls to
the derivative function per order-2 step; for a system of size `n = 1`
the order-2 step nevertheless invokes the derivative function twice
(`k1` and `k2`), so the call count is not `n`. -/
theorem C8_counterexample :
    (real_rungekutta2 1 0 wDerId wOne).2.length = 2 ∧
    ¬(real_rungekutta2 1 0 wDerId wOne).2.length = 1 :=
  ⟨rfl, by decide⟩

/-- Claim C8 (amended): each single-step call invokes the derivative
function a fixed number of times determined only by the method's order —
`2` calls per order-2 step, `4` per order-4 step and `6` per order-5 step
— independently of the system size, the step size and the grid point. -/
theorem C8_call_counts (h x : ℚ) (f : RDer) (y : RVec) :
    (real_rungekutta2 h x f y).2.length = 2 ∧
    (real_rungekutta4 h x f y).2.length = 4 ∧
    (real_rungekutta5 h x f y).2.length = 6 :=
  ⟨rfl, rfl, rfl⟩

/-- Claim C10: with `iter > 0` the corrector writes only the components
`i < n` of the output buffer and the scratch derivative slot
`[m*n, (m+1)*n)` (which lies inside the `(m+1)*n`-element `prev_der`
allocation of `alloc_real_multistep_wsarray`): derivative history entries
below `m*n` and at or above `(m+1)*n` and output components at or above
`n` are returned unchanged.  The state history `y` and the coefficient
arrays `a`, `b` are read-only inputs of the embedding and are not part of
the result at all. -/
theorem C10_corrector_frame (h x : ℚ) (f : RDer) (m s : ℕ) (y a b der ynext : RVec)
    (iter : ℕ) (hiter : 0 < iter) (p q r : ℕ)
    (hp : p < m * s) (hq : (m + 1) * s ≤ q) (hr : s ≤ r) :
    (real_general_multistep h x f m s y a b iter der ynext).2.1 p = der p ∧
    (real_general_multistep h x f m s y a b iter der ynext).2.1 q = der q ∧
    (real_general_multistep h x f m s y a b iter der ynext).1 r = ynext r := by
  obtain ⟨k, rfl⟩ : ∃ k, iter = k + 1 := ⟨iter - 1, by omega⟩
  have hms : (m + 1) * s = m * s + s := by ring
  exact ⟨(corrLoop_frame h x f m s y a b (k + 1) der ynext).1 p (by omega),
    (corrLoop_frame h x f m s y a b (k + 1) der ynext).1 q (by omega),
    (corrLoop_frame h x f m s y a b (k + 1) der ynext).2 r hr⟩

/-- Witness for C10 at `m = 1`, `n = 1`, one corrector pass: history entry
`0`, beyond-scratch entry `2` and output component `1` are untouched. -/
theorem C10_corrector_frame_witness :
    (real_general_multistep 1 0 wDerId 1 1 wTwo wOne wOne 1 wThree wZero).2.1 0 = wThree 0 ∧
    (real_general_multistep 1 0 wDerId 1 1 wTwo wOne wOne 1 wThree wZero).2.1 2 = wThree 2 ∧
    (real_general_multistep 1 0 wDerId 1 1 wTwo wOne wOne 1 wThree wZero).1 1 = wZero 1 :=
  C10_corrector_frame 1 0 wDerId 1 1 wTwo wOne wOne wThree wZero 1 (by decide) 0 2 1
    (by decide) (by decide) (by decide)

/-- Claim C4: the history-indexing invariant (`HistInv`: block `j` holds
the trajectory at `x_current - j*h`, the derivative block the callback
evaluated there).  First conjunct: the bootstrap establishes it — for any
trajectory `sol` that interpolates the bootstrap chain
(`sol (k*h) = bootChain k` for `k < m`, i.e. `y0` at block `m-1` through
the newest computed state at block `0`), the buffers produced by
`init_real_multistep` satisfy `HistInv` at `x_current = (m-1)*h`, so block
`j` corresponds to grid point `(m-1-j)*h`.  Second conjunct: every
roll-forward call made with the accepted next state (`ynext = sol (x+h)`)
and its grid point `x + h` preserves the invariant. -/
theorem C4_history_invariant (h : ℚ) (f : RDer) (m s : ℕ) (hm : 1 ≤ m) (rk : RKR)
    (y0 yms0 der0 : RVec) (sol : ℚ → RVec)
    (hsol : ∀ k, k < m → sol ((k : ℚ) * h) = bootChain h rk y0 k) :
    HistInv f h m s sol (((m - 1 : ℕ) : ℚ) * h)
      (init_real_multistep h f m s rk y0 yms0 der0).1
      (init_real_multistep h f m s rk y0 yms0 der0).2 ∧
    (∀ (x : ℚ) (y der ynext : RVec) (sol' : ℚ → RVec),
      HistInv f h m s sol' x y der → ynext = sol' (x + h) →
      HistInv f h m s sol' (x + h)
        (real_set_next_multistep (x + h) f m s y der ynext).1
        (real_set_next_multistep (x + h) f m s y der ynext).2) := by
  constructor
  · intro j hjm i hi
    obtain ⟨_, _, hblocks⟩ := initFold_inv h f m s rk y0 yms0 der0 (m - 1) le_rfl
    obtain ⟨hy, hd⟩ := hblocks j i hi (by omega) (by omega)
    have hcast : ((m - 1 : ℕ) : ℚ) * h - (j : ℚ) * h = ((m - 1 - j : ℕ) : ℚ) * h := by
      rw [Nat.cast_sub (show j ≤ m - 1 by omega)]
      ring
    rw [init_eq_fold, hcast, hsol (m - 1 - j) (by omega)]
    exact ⟨hy, hd⟩
  · intro x y der ynext sol' hinv hynext j hjm i hi
    by_cases hj0 : j = 0
    · subst hj0
      have hidx : 0 * s + i = i := by omega
      have hx0 : x + h - ((0 : ℕ) : ℚ) * h = x + h := by
        push_cast
        ring
      rw [hidx, hx0, set_next_fst, set_next_snd, if_pos hi, if_pos hi, hynext]
      exact ⟨rfl, rfl⟩
    · have hj1 : 1 ≤ j := by omega
      have hlt : j * s + i < m * s := blockIdx_lt hjm hi
      have hsle : s ≤ j * s := by
        have := Nat.mul_le_mul_right s hj1
        simpa using this
      have hsub : j * s + i - s = (j - 1) * s + i := by
        have hjs : j * s = (j - 1) * s + s := by
          have h1 : j - 1 + 1 = j := by omega
          calc j * s = (j - 1 + 1) * s := by rw [h1]
          _ = (j - 1) * s + s := by ring
        omega
      have hxj : x + h - (j : ℚ) * h = x - ((j - 1 : ℕ) : ℚ) * h := by
        rw [Nat.cast_sub hj1]
        push_cast
        ring
      obtain ⟨hy, hd⟩ := hinv (j - 1) (by omega) i hi
      constructor
      · rw [set_next_fst, if_neg (show ¬j * s + i < s by omega), if_pos hlt, hsub, hxj]
        exact hy
      · rw [set_next_snd, if_neg (show ¬j * s + i < s by omega), if_pos hlt, hsub, hxj]
        exact hd

/-- Witness for C4 at `m = 1`, `n = 1` with the zero derivative and the
constant trajectory. -/
theorem C4_history_invariant_witness :
    HistInv wDerZero 1 1 1 wSolOne (((1 - 1 : ℕ) : ℚ) * 1)
      (init_real_multistep 1 wDerZero 1 1 wRkConst wOne wZero wZero).1
      (init_real_multistep 1 wDerZero 1 1 wRkConst wOne wZero wZero).2 ∧
    (∀ (x : ℚ) (y der ynext : RVec) (sol' : ℚ → RVec),
      HistInv wDerZero 1 1 1 sol' x y der → ynext = sol' (x + 1) →
      HistInv wDerZero 1 1 1 sol' (x + 1)
        (real_set_next_multistep (x + 1) wDerZero 1 1 y der ynext).1
        (real_set_next_multistep (x + 1) wDerZero 1 1 y der ynext).2) :=
  C4_history_invariant 1 wDerZero 1 1 (by decide) wRkConst wOne wZero wZero wSolOne
    (fun k _ => by cases k <;> rfl)

/-- Claim C6: one order-4 Runge-Kutta step computes the classical stages
`k1 = f(x, y)`, `k2 = f(x + h/2, y + (h/2)k1)`,
`k3 = f(x + h/2, y + (h/2)k2)`, `k4 = f(x + h, y + h·k3)` and writes
`y_next[i] = y[i] + (h/6)(k1[i] + 2k2[i] + 2k3[i] + k4[i])`. -/
theorem C6_rungekutta4_formula (h x : ℚ) (f : RDer) (y k1 k2 k3 k4 : RVec) (i : ℕ)
    (h1 : k1 = f x y)
    (h2 : k2 = f (x + h / 2) (fun t => y t + h / 2 * k1 t))
    (h3 : k3 = f (x + h / 2) (fun t => y t + h / 2 * k2 t))
    (h4 : k4 = f (x + h) (fun t => y t + h * k3 t)) :
    (real_rungekutta4 h x f y).1 i =
      y i + h / 6 * (k1 i + 2 * k2 i + 2 * k3 i + k4 i) := by
  subst h1 h2 h3 h4
  simp only [real_rungekutta4]
  rw [show x + 1/2 * h = x + h / 2 from by ring]
  have e2 : (fun t => 1/2 * h * f x y t + y t) = fun t => y t + h / 2 * f x y t :=
    funext fun t => by ring
  rw [e2]
  have e3 : (fun t => 1/2 * h * f (x + h / 2) (fun r => y r + h / 2 * f x y r) t + y t) =
      fun t => y t + h / 2 * f (x + h / 2) (fun r => y r + h / 2 * f x y r) t :=
    funext fun t => by ring
  rw [e3]
  have e4 : (fun t => h * f (x + h / 2)
        (fun r => y r + h / 2 * f (x + h / 2) (fun q => y q + h / 2 * f x y q) r) t + y t) =
      fun t => y t + h * f (x + h / 2)
        (fun r => y r + h / 2 * f (x + h / 2) (fun q => y q + h / 2 * f x y q) r) t :=
    funext fun t => by ring
  rw [e4]
  ring

/-- Witness for C6: constant derivative `1` from the zero state with
`h = 1`, `x = 0`, component `0`. -/
theorem C6_rungekutta4_formula_witness :
    (real_rungekutta4 1 0 wDerOne wZero).1 0 =
      wZero 0 + 1 / 6 * (wk1 0 + 2 * wk2 0 + 2 * wk3 0 + wk4 0) :=
  C6_rungekutta4_formula 1 0 wDerOne wZero wk1 wk2 wk3 wk4 0 rfl rfl rfl rfl

/-- Claim C7: one order-5 Runge-Kutta step evaluates the derivative
function at the six nodes `x, x + h/4, x + h/4, x + h/2, x + 3h/4, x + h`
(stages built from the fixed Butcher-table combinations, as hypothesised)
and writes
`y_next[i] = y[i] + (h/90)(7k1[i] + 32k3[i] + 12k4[i] + 32k5[i] + 7k6[i])`:
stage weights `{7, 0, 32, 12, 32, 7}/90` with `k2` receiving weight zero. -/
theorem C7_rungekutta5_formula (h x : ℚ) (f : RDer) (y k1 k2 k3 k4 k5 k6 : RVec) (i : ℕ)
    (h1 : k1 = f x y)
    (h2 : k2 = f (x + h / 4) (fun t => y t + h / 4 * k1 t))
    (h3 : k3 = f (x + h / 4) (fun t => y t + h / 8 * (k1 t + k2 t)))
    (h4 : k4 = f (x + h / 2) (fun t => y t + h / 2 * k3 t))
    (h5 : k5 = f (x + 3 * h / 4)
      (fun t => y t + h / 16 * (3 * k1 t - 6 * k2 t + 6 * k3 t + 9 * k4 t)))
    (h6 : k6 = f (x + h)
      (fun t => y t + h / 7 * (-3 * k1 t + 8 * k2 t + 6 * k3 t - 12 * k4 t + 8 * k5 t))) :
    (real_rungekutta5 h x f y).1 i =
      y i + h / 90 * (7 * k1 i + 32 * k3 i + 12 * k4 i + 32 * k5 i + 7 * k6 i) ∧
    (real_rungekutta5 h x f y).2.map Prod.fst =
      [x, x + h / 4, x + h / 4, x + h / 2, x + 3 * h / 4, x + h] := by
  subst h1 h2 h3 h4 h5 h6
  simp only [real_rungekutta5, List.map]
  rw [show x + 1/4 * h = x + h / 4 from by ring,
    show x + 1/2 * h = x + h / 2 from by ring,
    show x + 3/4 * h = x + 3 * h / 4 from by ring]
  exact ⟨by ring, rfl⟩

/-- Witness for C7: constant derivative `1` from the zero state with
`h = 1`, `x = 0`, component `0`. -/
theorem C7_rungekutta5_formula_witness :
    (real_rungekutta5 1 0 wDerOne wZero).1 0 =
      wZero 0 + 1 / 90 * (7 * wm1 0 + 32 * wm3 0 + 12 * wm4 0 + 32 * wm5 0 + 7 * wm6 0) ∧
    (real_rungekutta5 1 0 wDerOne wZero).2.map Prod.fst =
      [0, 0 + 1 / 4, 0 + 1 / 4, 0 + 1 / 2, 0 + 3 * 1 / 4, 0 + 1] :=
  C7_rungekutta5_formula 1 0 wDerOne wZero wm1 wm2 wm3 wm4 wm5 wm6 0 rfl rfl rfl rfl rfl rfl

/-- Claim C9: the complex-scalar variant of every operation is the same
algorithm as the real-scalar variant over a different scalar type.
Whenever the complex derivative callback `fc` and the complex single-step
routine `rkc` are embeddings of real-valued ones (`fr`, `rkr`), each
complex operation applied to embedded states, histories and buffers
returns exactly the embedding of the real operation's output (including
the derivative-callback invocation traces): the three Runge-Kutta steps,
the general multistep step (every iteration count), the history
roll-forward, the bootstrap, and the two Adams predictor-corrector
wrappers. -/
theorem C9_complex_mirrors_real (fr : RDer) (fc : CDer) (rkr : RKR) (rkc : CKR)
    (hf : ∀ x u, fc x (embV u) = embV (fr x u))
    (hrk : ∀ h x u, rkc h x (embV u) = embV (rkr h x u)) :
    (∀ h x y, cplx_rungekutta2 h x fc (embV y) = embStep (real_rungekutta2 h x fr y)) ∧
    (∀ h x y, cplx_rungekutta4 h x fc (embV y) = embStep (real_rungekutta4 h x fr y)) ∧
    (∀ h x y, cplx_rungekutta5 h x fc (embV y) = embStep (real_rungekutta5 h x fr y)) ∧
    (∀ h x m s y a b iter der ynext,
      cplx_general_multistep h x fc m s (embV y) a b iter (embV der) (embV ynext) =
        embRes (real_general_multistep h x fr m s y a b iter der ynext)) ∧
    (∀ xnext m s y der ynext,
      cplx_set_next_multistep xnext fc m s (embV y) (embV der) (embV ynext) =
        embPair (real_set_next_multistep xnext fr m s y der ynext)) ∧
    (∀ h m s y0 yms der,
      init_cplx_multistep h fc m s rkc (embV y0) (embV yms) (embV der) =
        embPair (init_real_multistep h fr m s rkr y0 yms der)) ∧
    (∀ h x m s y iter der ynext,
      cplx_adams4pc h x fc m s (embV y) iter (embV der) (embV ynext) =
        embRes (real_adams4pc h x fr m s y iter der ynext)) ∧
    (∀ h x m s y iter der ynext,
      cplx_adams6pc h x fc m s (embV y) iter (embV der) (embV ynext) =
        embRes (real_adams6pc h x fr m s y iter der ynext)) :=
  ⟨fun h x y => rk2_equiv fr fc hf h x y,
   fun h x y => rk4_equiv fr fc hf h x y,
   fun h x y => rk5_equiv fr fc hf h x y,
   fun h x m s y a b iter der ynext => gms_equiv fr fc hf h x m s y a b iter der ynext,
   fun xnext m s y der ynext => set_next_equiv fr fc hf xnext m s y der ynext,
   fun h m s y0 yms der => init_equiv fr fc hf rkr rkc hrk h m s y0 yms der,
   fun h x m s y iter der ynext => adams4_equiv fr fc hf h x m s y iter der ynext,
   fun h x m s y iter der ynext => adams6_equiv fr fc hf h x m s y iter der ynext⟩

/-- Witness for C9 with the identity-like callbacks, whose complex
versions are embeddings of the real ones by definition. -/
theorem C9_complex_mirrors_real_witness :
    (∀ h x y, cplx_rungekutta2 h x wIdC (embV y) = embStep (real_rungekutta2 h x wIdR y)) ∧
    (∀ h x y, cplx_rungekutta4 h x wIdC (embV y) = embStep (real_rungekutta4 h x wIdR y)) ∧
    (∀ h x y, cplx_rungekutta5 h x wIdC (embV y) = embStep (real_rungekutta5 h x wIdR y)) ∧
    (∀ h x m s y a b iter der ynext,
      cplx_general_multistep h x wIdC m s (embV y) a b iter (embV der) (embV ynext) =
        embRes (real_general_multistep h x wIdR m s y a b iter der ynext)) ∧
    (∀ xnext m s y der ynext,
      cplx_set_next_multistep xnext wIdC m s (embV y) (embV der) (embV ynext) =
        embPair (real_set_next_multistep xnext wIdR m s y der ynext)) ∧
    (∀ h m s y0 yms der,
      init_cplx_multistep h wIdC m s wIdCK (embV y0) (embV yms) (embV der) =
        embPair (init_real_multistep h wIdR m s wIdRK y0 yms der)) ∧
    (∀ h x m s y iter der ynext,
      cplx_adams4pc h x wIdC m s (embV y) iter (embV der) (embV ynext) =
        embRes (real_adams4pc h x wIdR m s y iter der ynext)) ∧
    (∀ h x m s y iter der ynext,
      cplx_adams6pc h x wIdC m s (embV y) iter (embV der) (embV ynext) =
        embRes (real_adams6pc h x wIdR m s y iter der ynext)) :=
  C9_complex_mirrors_real wIdR wIdC wIdRK wIdCK (fun _ _ => rfl) (fun _ _ _ => rfl)

end Odelib
